import Mathlib

/-!
Verification of the tree-sitter-vscode semantic-token pipeline.

Shallow embedding of `src/extension.ts` (the current version of the file:
`SemanticTokensProvider` with `parseToTokens`, `matchesToTokens`,
`getInjection`/`getInjections`, plus the helpers `parseCaptureName`,
`splitToken`, `addPosition`, `convertPosition`).

Modelling conventions:
* `vscode.Position` is modelled by `Pos` (0-based line/character, `Nat`);
  its comparison operators (`compareTo`, `isBefore`, `isAfter`) are the
  lexicographic order.
* `vscode.Range` is modelled by `Range'` with fields `start` and `stop`
  (`stop` models the source's `end`, which is a reserved word in Lean).
  `contains`, `isEqual` and `intersection` follow the vscode API semantics:
  `contains` is position-wise and inclusive at both endpoints,
  `intersection` returns `none` only when `max start > min end` (ranges that
  merely touch intersect in an empty range).
* Throwing JavaScript code is modelled with `Except Err`; a `throw`
  statement becomes `Except.error`.
* `Parser.Point` coincides with `Pos`; `convertPosition` is the identity.
* JavaScript `Array.prototype.sort` is guaranteed stable, and a stable sort
  by a total preorder is uniquely determined, so it is modelled by a stable
  insertion sort (`jsSortByStart`).
* JavaScript `String.prototype.split` with separator `"."` is modelled by
  `splitDots`; note `"".split(".") = [""]` (never the empty array).
-/

/-- Source position (0-based line and character), models `vscode.Position`. -/
structure Pos where
  line : Nat
  char : Nat
deriving DecidableEq, Repr

/-- Strict lexicographic order on positions (`isBefore`). -/
def Pos.lt (a b : Pos) : Prop :=
  a.line < b.line ∨ (a.line = b.line ∧ a.char < b.char)

/-- Non-strict lexicographic order on positions (`isBeforeOrEqual`). -/
def Pos.le (a b : Pos) : Prop :=
  a.line < b.line ∨ (a.line = b.line ∧ a.char ≤ b.char)

instance : LT Pos := ⟨Pos.lt⟩

instance : LE Pos := ⟨Pos.le⟩

instance Pos.decLt : (a b : Pos) → Decidable (a < b) := fun a b =>
  decidable_of_iff (a.line < b.line ∨ (a.line = b.line ∧ a.char < b.char)) Iff.rfl

instance Pos.decLe : (a b : Pos) → Decidable (a ≤ b) := fun a b =>
  decidable_of_iff (a.line < b.line ∨ (a.line = b.line ∧ a.char ≤ b.char)) Iff.rfl

instance : LinearOrder Pos where
  le_refl a := Or.inr ⟨rfl, Nat.le_refl _⟩
  le_trans a b c hab hbc := by
    rcases a with ⟨la, ca⟩; rcases b with ⟨lb, cb⟩; rcases c with ⟨lc, cc⟩
    have hab' : Pos.le ⟨la, ca⟩ ⟨lb, cb⟩ := hab
    have hbc' : Pos.le ⟨lb, cb⟩ ⟨lc, cc⟩ := hbc
    show Pos.le ⟨la, ca⟩ ⟨lc, cc⟩
    simp only [Pos.le] at *; omega
  le_antisymm a b hab hba := by
    rcases a with ⟨la, ca⟩; rcases b with ⟨lb, cb⟩
    have hab' : Pos.le ⟨la, ca⟩ ⟨lb, cb⟩ := hab
    have hba' : Pos.le ⟨lb, cb⟩ ⟨la, ca⟩ := hba
    simp only [Pos.le] at hab' hba'
    have h2 : la = lb ∧ ca = cb := by omega
    simp [h2.1, h2.2]
  le_total a b := by
    rcases a with ⟨la, ca⟩; rcases b with ⟨lb, cb⟩
    show Pos.le ⟨la, ca⟩ ⟨lb, cb⟩ ∨ Pos.le ⟨lb, cb⟩ ⟨la, ca⟩
    simp only [Pos.le]; omega
  lt_iff_le_not_le a b := by
    rcases a with ⟨la, ca⟩; rcases b with ⟨lb, cb⟩
    show Pos.lt ⟨la, ca⟩ ⟨lb, cb⟩ ↔ Pos.le ⟨la, ca⟩ ⟨lb, cb⟩ ∧ ¬ Pos.le ⟨lb, cb⟩ ⟨la, ca⟩
    simp only [Pos.lt, Pos.le]; omega
  decidableLE := Pos.decLe
  decidableLT := Pos.decLt

/-- Models `vscode.Position.compareTo`: the sign encodes the lexicographic
order. -/
def Pos.compareTo (a b : Pos) : Int :=
  if a.line = b.line then (a.char : Int) - (b.char : Int)
  else (a.line : Int) - (b.line : Int)

/-- Models `vscode.Range`; field `stop` models the source's `end`. -/
structure Range' where
  start : Pos
  stop : Pos
deriving DecidableEq, Repr

/-- Models `vscode.Range.contains(position)`: inclusive at both endpoints. -/
def Range'.containsPos (r : Range') (p : Pos) : Prop :=
  r.start ≤ p ∧ p ≤ r.stop

instance (r : Range') (p : Pos) : Decidable (r.containsPos p) := by
  unfold Range'.containsPos; infer_instance

/-- Models `vscode.Range.contains(range)`: both endpoints of `o` lie in `r`. -/
def Range'.containsRange (r o : Range') : Prop :=
  r.containsPos o.start ∧ r.containsPos o.stop

instance (r o : Range') : Decidable (r.containsRange o) := by
  unfold Range'.containsRange; infer_instance

/-- Models `vscode.Range.isEqual`. -/
def Range'.isEqual (r o : Range') : Prop :=
  r.start = o.start ∧ r.stop = o.stop

instance (r o : Range') : Decidable (r.isEqual o) := by
  unfold Range'.isEqual; infer_instance

/-- Models `vscode.Range.intersection`: `none` exactly when the ranges are fully
separated; ranges that merely touch yield an empty range. -/
def Range'.intersection (r o : Range') : Option Range' :=
  if min r.stop o.stop < max r.start o.start then none
  else some ⟨max r.start o.start, min r.stop o.stop⟩

/-- VSCode default token types (`TOKEN_TYPES` in the source). -/
def TOKEN_TYPES : List String :=
  ["namespace", "class", "enum", "interface", "struct", "typeParameter",
   "type", "parameter", "variable", "property", "enumMember", "decorator",
   "event", "function", "method", "macro", "label", "comment", "string",
   "keyword", "number", "regexp", "operator"]

/-- VSCode default token modifiers (`TOKEN_MODIFIERS` in the source). -/
def TOKEN_MODIFIERS : List String :=
  ["declaration", "definition", "readonly", "static", "deprecated",
   "abstract", "async", "modification", "documentation", "defaultLibrary"]

/-- A classified token: `type Token = { range, type, modifiers }`. -/
structure Token where
  range : Range'
  type : String
  modifiers : List String
deriving DecidableEq, Repr

/-- Errors thrown by the pipeline. `invalidCapture` models
`throw new Error("Capture name is empty.")`, `invalidRange` models
`throw new RangeError("Invalid token range")`, `noConfig` models
`throw new Error("No config for lang provided.")`; `depthExceeded` is the
fuel bound of the shallow embedding of the injection recursion. -/
inductive Err where
  | invalidCapture
  | invalidRange
  | noConfig
  | depthExceeded
deriving DecidableEq, Repr

/-- Models `convertPosition`: `Parser.Point` is modelled as `Pos`, so this is the
identity, kept for correspondence with the source. -/
def convertPosition (p : Pos) : Pos := p

/-- Models `addPosition` from the source: shift a range by a start position; the
character offset is only applied on line 0 of the (relative) range. -/
def addPosition (range : Range') (pos : Pos) : Range' :=
  let start :=
    if range.start.line = 0 then
      Pos.mk (range.start.line + pos.line) (range.start.char + pos.char)
    else
      Pos.mk (range.start.line + pos.line) range.start.char
  let stop :=
    if range.stop.line = 0 then
      Pos.mk (range.stop.line + pos.line) (range.stop.char + pos.char)
    else
      Pos.mk (range.stop.line + pos.line) range.stop.char
  Range'.mk start stop

/-!
Section: Capture classification (`parseCaptureName`, lines 462-471, and the
classification part of `matchesToTokens`, lines 604-646)
-/

/-- JavaScript `name.split(".")` on the character list. Splitting always
yields at least one (possibly empty) segment; in particular
`"".split(".") = [""]`. -/
def splitDotsAux : List Char → List (List Char)
  | [] => [[]]
  | c :: cs =>
    match splitDotsAux cs with
    | [] => [[]]
    | g :: gs => if c = '.' then [] :: g :: gs else (c :: g) :: gs

/-- JavaScript `name.split(".")`. -/
def splitDots (name : String) : List String :=
  (splitDotsAux name.data).map (fun l => String.mk l)

/-- Models `parseCaptureName` (lines 462-471): split the dotted capture name into a
base type and modifier segments; throws when the split is empty (which, per
`splitDots_ne_nil`, never happens). -/
def parseCaptureName (name : String) : Except Err (String × List String) :=
  match splitDots name with
  | [] => .error .invalidCapture
  | [t] => .ok (t, [])
  | t :: ms => .ok (t, ms)

/-- One entry of `semanticTokenTypeMappings`:
`{ targetTokenType, targetTokenModifiers? }`. -/
structure SemanticTokenTypeMapping where
  targetTokenType : String
  targetTokenModifiers : Option (List String)
deriving DecidableEq, Repr

/-- A whole `semanticTokenTypeMappings` object, modelled as an association list
(JavaScript object keys are unique; `hasOwnProperty` + index access is
association-list lookup). -/
abbrev MappingTable := List (String × SemanticTokenTypeMapping)

/-- The mapping block of `matchesToTokens` (lines 613-633): look up the
entire original capture name first, then the base type; an entry replaces
the type, and replaces the modifiers only when `targetTokenModifiers` is
present (an empty array is truthy in JavaScript, so `some []` replaces). -/
def applyMappings (table : Option MappingTable) (originalCaptureName : String)
    (type : String) (modifiers : List String) : String × List String :=
  match table with
  | none => (type, modifiers)
  | some tbl =>
    match tbl.lookup originalCaptureName with
    | some mapping =>
      (mapping.targetTokenType,
        match mapping.targetTokenModifiers with
        | some l => l
        | none => modifiers)
    | none =>
      match tbl.lookup type with
      | some mapping =>
        (mapping.targetTokenType,
          match mapping.targetTokenModifiers with
          | some l => l
          | none => modifiers)
      | none => (type, modifiers)

/-- A capture of the highlight query: name plus the captured node's
`startPosition`/`endPosition` (`nodeStop` models `endPosition`). -/
structure HCapture where
  name : String
  nodeStart : Pos
  nodeStop : Pos
deriving DecidableEq, Repr

/-- The per-capture body of the first `flatMap` of `matchesToTokens`
(lines 606-646): parse the capture name, apply the mapping table of the
current language, then emit the token only if the mapped type is in
`TOKEN_TYPES`, with the modifiers filtered against `TOKEN_MODIFIERS`. -/
def classifyCapture (table : Option MappingTable) (capture : HCapture) :
    Except Err (List Token) := do
  let (type0, modifiers0) ← parseCaptureName capture.name
  let start := convertPosition capture.nodeStart
  let stop := convertPosition capture.nodeStop
  let (type, modifiers) := applyMappings table capture.name type0 modifiers0
  if TOKEN_TYPES.contains type then
    let validModifiers := modifiers.filter (fun m => TOKEN_MODIFIERS.contains m)
    .ok [Token.mk (Range'.mk start stop) type validModifiers]
  else
    .ok []

/-- The first `flatMap` of `matchesToTokens` over all captures (left to
right, the first thrown error aborting, as in JavaScript). -/
def classifyAll (table : Option MappingTable) : List HCapture → Except Err (List Token)
  | [] => .ok []
  | c :: cs => do
    let t ← classifyCapture table c
    let ts ← classifyAll table cs
    .ok (t ++ ts)

/-!
Section: Line splitting (`splitToken`, lines 478-517)
-/

/-- Models `splitToken` (lines 478-517): a token whose range spans several lines is
split into one fragment per line; the first fragment ends at the sentinel
column 100000, middle fragments span column 0 to the sentinel, the last
fragment ends at the original end column.  A range whose end line precedes
its start line throws `RangeError("Invalid token range")`. -/
def splitToken (token : Token) : Except Err (List Token) :=
  let start := token.range.start
  let stop := token.range.stop
  if start.line ≠ stop.line then
    if stop.line < start.line then
      .error .invalidRange
    else
      let maxLineLength := 100000
      let lineDiff := stop.line - start.line
      let first := Token.mk (Range'.mk start (Pos.mk start.line maxLineLength))
        token.type token.modifiers
      let middles := (List.range (lineDiff - 1)).map (fun i =>
        Token.mk (Range'.mk (Pos.mk (start.line + i + 1) 0)
          (Pos.mk (start.line + i + 1) maxLineLength)) token.type token.modifiers)
      let last := Token.mk (Range'.mk (Pos.mk stop.line 0) stop)
        token.type token.modifiers
      .ok (first :: middles ++ [last])
  else
    .ok [token]

/-- The final `flatMap(splitToken)` of `matchesToTokens` (line 687). -/
def splitAll : List Token → Except Err (List Token)
  | [] => .ok []
  | t :: ts => do
    let fragments ← splitToken t
    let rest ← splitAll ts
    .ok (fragments ++ rest)

/-!
Section: Containment resolution (`matchesToTokens`, lines 648-687)
-/

/-- JS comparator `(a, b) => a.range.start.compareTo(b.range.start)` sorts
ascending, i.e. keeps `a` before `b` when the comparator is `≤ 0`. -/
def compareByStart (a b : Token) : Bool :=
  decide (Pos.compareTo a.range.start b.range.start ≤ 0)

/-- Stable insertion into a sorted list (`x` goes before the first element
it compares `≤ 0` against, so equal keys keep their original order). -/
def insertSorted (x : Token) : List Token → List Token
  | [] => [x]
  | y :: ys => if compareByStart x y then x :: y :: ys else y :: insertSorted x ys

/-- Models `contained.sort((a, b) => a.range.start.compareTo(b.range.start))`:
JavaScript's `Array.prototype.sort` is stable, and a stable sort by a total
preorder is uniquely determined, so stable insertion sort models it. -/
def jsSortByStart : List Token → List Token
  | [] => []
  | x :: xs => insertSorted x (jsSortByStart xs)

/-- Models `unsplitTokens.filter(t => !(token.range.isEqual(t.range)) &&
token.range.contains(t.range))` (lines 650-652). -/
def containedIn (unsplitTokens : List Token) (token : Token) : List Token :=
  unsplitTokens.filter (fun t =>
    decide (¬ token.range.isEqual t.range ∧ token.range.containsRange t.range))

/-- The gap-construction loop of `matchesToTokens` (lines 660-681): walk the
sorted contained tokens, emitting a gap token whenever `currentPos` is
strictly before the next contained token's start, always advancing
`currentPos` to the contained token's end; finally emit the trailing gap if
`currentPos` is strictly before the outer token's end. -/
def walkGaps (token : Token) (currentPos : Pos) : List Token → List Token
  | [] =>
    if Pos.compareTo currentPos token.range.stop < 0 then
      [Token.mk (Range'.mk currentPos token.range.stop) token.type token.modifiers]
    else []
  | c :: rest =>
    (if Pos.compareTo currentPos c.range.start < 0 then
      [Token.mk (Range'.mk currentPos c.range.start) token.type token.modifiers]
    else []) ++ walkGaps token c.range.stop rest

/-- The body of the second `flatMap` of `matchesToTokens` (lines 648-687):
a token with strictly-contained other tokens is replaced by the gap tokens,
any other token passes through unchanged. -/
def containmentStep (unsplitTokens : List Token) (token : Token) : List Token :=
  let contained := containedIn unsplitTokens token
  if contained.length > 0 then
    walkGaps token token.range.start (jsSortByStart contained)
  else
    [token]

/-- The containment-resolution pass over the whole flat token list. -/
def resolveContainment (unsplitTokens : List Token) : List Token :=
  unsplitTokens.flatMap (fun token => containmentStep unsplitTokens token)

/-- Containment resolution followed by line splitting (the tail of
`matchesToTokens`: lines 648-687 then `.flatMap(splitToken)`). -/
def normalizeTokens (unsplitTokens : List Token) : Except Err (List Token) :=
  splitAll (resolveContainment unsplitTokens)

/-- Models `matchesToTokens` (lines 603-688): classify all captures of all matches
(`qmatches` models the `matches` parameter, whose name is reserved in Lean),
resolve containment, split multi-line tokens. -/
def matchesToTokens (table : Option MappingTable) (qmatches : List (List HCapture)) :
    Except Err (List Token) := do
  let unsplitTokens ← classifyAll table (qmatches.flatMap (fun m => m))
  normalizeTokens unsplitTokens

/-!
Section: Merging injections into the parent stream (`parseToTokens`, lines 566-595)
-/

/-- Models `type Injection` of the source: an injection range and its resolved tokens. -/
structure Injection where
  range : Range'
  tokens : List Token
deriving DecidableEq, Repr

/-- One iteration of the merge loop of `parseToTokens` (lines 569-593): for
an injection with non-empty tokens, remove parent tokens contained in the
injection range, and split parent tokens that intersect it into the parts
before and after; an injection with empty tokens changes nothing. -/
def mergeStep (tokens : List Token) (injection : Injection) : List Token :=
  if injection.tokens.length > 0 then
    let range := injection.range
    (tokens.filter (fun token => decide (¬ range.containsRange token.range))).flatMap
      (fun token =>
        match token.range.intersection range with
        | some _ =>
          (if token.range.start < range.start then
            [Token.mk (Range'.mk token.range.start range.start) token.type token.modifiers]
          else []) ++
          (if range.stop < token.range.stop then
            [Token.mk (Range'.mk range.stop token.range.stop) token.type token.modifiers]
          else [])
        | none => [token])
  else
    tokens

/-- The merge loop over all injections followed by appending every
injection's token list (lines 569-594). -/
def mergeInjections (tokens : List Token) (injections : List Injection) : List Token :=
  (injections.foldl mergeStep tokens) ++ (injections.map (fun i => i.tokens)).flatten

/-!
Section: The recursive pipeline (`parseToTokens`, `getInjection`, `getInjections`,
`provideDocumentSemanticTokens`, lines 538-601 and 693-752)

The parser and query engine are black boxes (spec §6); one invocation of
them is modelled by a `Scen` ("scenario") value: the highlight-query
matches for the parsed text, and, when the language has an injection query,
the injection-query matches.  Each injection capture carries, per
configured language identifier, the scenario that parsing its node text
with that language's parser would produce (`subs`).  The injection
recursion of the source is unbounded (it recurses on node text); the
embedding makes it total with an explicit fuel parameter — `Err.depthExceeded`
does not occur in the source and only marks fuel exhaustion, and every
theorem quantifies over the fuel.
-/

mutual
/-- One parser/query invocation: highlight matches (each a capture list)
and, if the language has an injection query, the injection matches. -/
inductive Scen where
  | mk (hmatches : List (List HCapture)) (imatches : Option (List IMatch)) : Scen

/-- An injection-query match: the `(#set! injection.language "…")` directive
value, if any (`setProperties`), and the captures. -/
inductive IMatch where
  | mk (setLang : Option String) (captures : List ICapture) : IMatch

/-- An injection-query capture: name, node text, node start/end positions,
and the scenario its node text parses to under each configured language. -/
inductive ICapture where
  | mk (name : String) (text : String) (nodeStart nodeStop : Pos)
      (subs : List (String × Scen)) : ICapture
end

def Scen.hmatches : Scen → List (List HCapture)
  | .mk h _ => h

def Scen.imatches : Scen → Option (List IMatch)
  | .mk _ i => i

def IMatch.setLang : IMatch → Option String
  | .mk s _ => s

def IMatch.captures : IMatch → List ICapture
  | .mk _ c => c

def ICapture.name : ICapture → String
  | .mk n _ _ _ _ => n

def ICapture.text : ICapture → String
  | .mk _ t _ _ _ => t

def ICapture.nodeStart : ICapture → Pos
  | .mk _ _ s _ _ => s

def ICapture.nodeStop : ICapture → Pos
  | .mk _ _ _ e _ => e

def ICapture.subs : ICapture → List (String × Scen)
  | .mk _ _ _ _ s => s

/-- The scenario obtained by parsing this capture's node text with the
given language's parser (tree-sitter parsing is total, so a missing entry
defaults to the empty scenario). -/
def ICapture.subScen (c : ICapture) (lang : String) : Scen :=
  match (c.subs.find? (fun p => p.1 = lang)).map (fun p => p.2) with
  | some s => s
  | none => Scen.mk [] none

/-- JavaScript `a || b` on string-or-undefined values: the empty string is
falsy, so it falls through to `b`. -/
def jsOrString (a b : Option String) : Option String :=
  match a with
  | some s => if s = "" then b else some s
  | none => b

/-- The ambient per-request provider state read by the pipeline:
`langs` is `this.configs.map(c => c.lang)` (only the identifiers are
consulted by `getInjection`), and `table` is
`this.tsLangs[this.currentLanguage].semanticTokenTypeMappings`.
`currentLanguage` is assigned exactly once per request (line 543, the
document's language) and never reassigned during injection recursion, and
`tsLangs[l]` always holds `initLanguage(config(l))`, whose mapping table is
`config(l).semanticTokenTypeMappings` — so `table` is constant for the
whole request. -/
structure Ctx where
  langs : List String
  table : Option MappingTable
deriving Repr

/-- Models `getInjection` (lines 693-742), parameterized by the recursive call
`recurse` standing for `this.parseToTokens(langConfig, text, startPos)`:
determine the language by the `||` chain (directive-set, then the text of
an `injection.language` capture, then a capture named like a configured
language), determine the content capture by `!== undefined` tests on the
same three rules, then produce the injection if the language is
configured. -/
def getInjectionWith (recurse : Scen → Pos → Except Err (List Token))
    (ctx : Ctx) (m : IMatch) : Except Err (Option Injection) :=
  let hardCoded := m.setLang
  let dynamic := (m.captures.find? (fun c => c.name = "injection.language")).map
    (fun c => c.text)
  let nameLang := (m.captures.find? (fun c => ctx.langs.contains c.name)).map
    (fun c => c.name)
  match jsOrString (jsOrString hardCoded dynamic) nameLang with
  | none => .ok none
  | some lang =>
    let capture : Option ICapture :=
      if hardCoded.isSome then m.captures.head?
      else if dynamic.isSome then m.captures.find? (fun c => c.name = "injection.content")
      else if nameLang.isSome then m.captures.find? (fun c => c.name = lang)
      else none
    match capture with
    | none => .ok none
    | some cap =>
      if ctx.langs.contains lang then do
        let tokens ← recurse (cap.subScen lang) cap.nodeStart
        .ok (some (Injection.mk
          (Range'.mk (convertPosition cap.nodeStart) (convertPosition cap.nodeStop))
          tokens))
      else
        .ok none

/-- Models `getInjections` (lines 748-752): resolve every injection match, keeping
the non-null results in match order (the `Promise.all` + `filter`). -/
def getInjectionsWith (recurse : Scen → Pos → Except Err (List Token))
    (ctx : Ctx) : List IMatch → Except Err (List Injection)
  | [] => .ok []
  | m :: ms => do
    let i ← getInjectionWith recurse ctx m
    let rest ← getInjectionsWith recurse ctx ms
    .ok (match i with
      | some injection => injection :: rest
      | none => rest)

/-- Models `parseToTokens` (lines 561-601): match the highlight query and classify
(`matchesToTokens`), resolve and merge injections when the language has an
injection query, then shift every token by the invocation's start
position. -/
def parseToTokens : Nat → Ctx → Scen → Pos → Except Err (List Token)
  | 0, _, _, _ => .error .depthExceeded
  | Nat.succ fuel, ctx, scen, startPosition => do
    let tokens ← matchesToTokens ctx.table scen.hmatches
    let merged ←
      match scen.imatches with
      | none => pure tokens
      | some imatches => do
        let injections ← getInjectionsWith
          (fun s p => parseToTokens fuel ctx s p) ctx imatches
        pure (mergeInjections tokens injections)
    .ok (merged.map (fun token =>
      Token.mk (addPosition token.range (convertPosition startPosition))
        token.type token.modifiers))

/-- One language configuration, reduced to the fields the pipeline reads
after loading: the identifier and the optional mapping table. -/
structure LangConfig where
  lang : String
  mappings : Option MappingTable
deriving Repr

/-- Models `provideDocumentSemanticTokens` (lines 538-555): set `currentLanguage`
to the document's language, fail when it has no configuration, then run
`parseToTokens` from position (0,0).  The classifier table of the whole
request is the document language's `semanticTokenTypeMappings`. -/
def provideDocumentSemanticTokens (fuel : Nat) (configs : List LangConfig)
    (docLang : String) (scen : Scen) : Except Err (List Token) :=
  match configs.find? (fun c => c.lang = docLang) with
  | none => .error .noConfig
  | some config =>
    parseToTokens fuel
      (Ctx.mk (configs.map (fun c => c.lang)) config.mappings) scen (Pos.mk 0 0)

/-!
Section: Specification-side definitions and predicates used by the claims
-/

/-- Transcribed from the specification's description of the injection merge
(spec §4.5 / claim C2), for comparison with `mergeStep`: a parent token
fully contained in the injection range is dropped; a parent token that
intersects the range without being contained is replaced by its fragment
before the injection start (if its start precedes it) and/or its fragment
after the injection end (if its end follows it); any other token is kept. -/
def clipTokenSpec (range : Range') (token : Token) : List Token :=
  if range.containsRange token.range then []
  else if (token.range.intersection range).isSome then
    (if token.range.start < range.start then
      [Token.mk (Range'.mk token.range.start range.start) token.type token.modifiers]
    else []) ++
    (if range.stop < token.range.stop then
      [Token.mk (Range'.mk range.stop token.range.stop) token.type token.modifiers]
    else [])
  else
    [token]

/-- Transcribed from the claim: an injection with non-empty resolved tokens
clips every parent token; an injection with empty tokens leaves the parent
tokens completely unchanged. -/
def mergeStepSpec (tokens : List Token) (injection : Injection) : List Token :=
  if injection.tokens = [] then tokens
  else tokens.flatMap (clipTokenSpec injection.range)

/-- Transcribed from the claim: process the injections in order, then append
all injection token lists after the surviving parent fragments. -/
def mergeInjectionsSpec (tokens : List Token) (injections : List Injection) : List Token :=
  (injections.foldl mergeStepSpec tokens) ++ (injections.map (fun i => i.tokens)).flatten

/-- Ranges are separated (as half-open intervals they share no position). -/
def RDisj (r s : Range') : Prop :=
  r.stop ≤ s.start ∨ s.stop ≤ r.start

instance (r s : Range') : Decidable (RDisj r s) := by
  unfold RDisj; infer_instance

/-- Range `o` is strictly inside `r`: exactly the predicate of the
containment filter of `matchesToTokens` (contained and not range-equal). -/
def strictIn (o r : Range') : Prop :=
  r.containsRange o ∧ ¬ r.isEqual o

instance (o r : Range') : Decidable (strictIn o r) := by
  unfold strictIn; infer_instance

/-- Two ranges overlap when, read as half-open intervals, they share at
least one position. -/
def Overlap (r s : Range') : Prop :=
  max r.start s.start < min r.stop s.stop

instance (r s : Range') : Decidable (Overlap r s) := by
  unfold Overlap; infer_instance

/-- Tokens with non-degenerate ranges that pairwise either nest strictly or
are separated (the shape tree-sitter query captures take: node ranges nest
or are disjoint, and no two captures share the exact same range). -/
def TokLaminar (a b : Token) : Prop :=
  RDisj a.range b.range ∨ strictIn a.range b.range ∨ strictIn b.range a.range

instance (a b : Token) : Decidable (TokLaminar a b) := by
  unfold TokLaminar; infer_instance

/-- No chain of three strictly nested token ranges occurs in the list. -/
def NoThreeChain (ts : List Token) : Prop :=
  ∀ t ∈ ts, ∀ u ∈ ts, ∀ v ∈ ts,
    strictIn u.range t.range → strictIn v.range u.range → False

instance (ts : List Token) : Decidable (NoThreeChain ts) := by
  unfold NoThreeChain; infer_instance

/-- The candidate (type, modifiers) of a capture after name parsing and
mapping, before the vocabulary filter (the values of the mutable `type` and
`modifiers` variables after line 633 of the source). -/
def mappedCandidate (table : Option MappingTable) (capture : HCapture) :
    String × List String :=
  match parseCaptureName capture.name with
  | .ok (type0, modifiers0) => applyMappings table capture.name type0 modifiers0
  | .error _ => ("", [])

/-- The mapping table of the configuration selected for a language
identifier, if any (used to state claim C9). -/
def mappingsFor (configs : List LangConfig) (lang : String) :
    Option (Option MappingTable) :=
  (configs.find? (fun c => c.lang = lang)).map (fun c => c.mappings)

instance {ε α : Type} [DecidableEq ε] [DecidableEq α] : DecidableEq (Except ε α) :=
  fun a b =>
    match a, b with
    | .error e, .error f =>
      decidable_of_iff (e = f) ⟨fun h => by rw [h], fun h => by injection h⟩
    | .error _, .ok _ => isFalse (fun h => Except.noConfusion h)
    | .ok _, .error _ => isFalse (fun h => Except.noConfusion h)
    | .ok x, .ok y =>
      decidable_of_iff (x = y) ⟨fun h => by rw [h], fun h => by injection h⟩

/-!
Section: General lemmas about positions, ranges and capture-name parsing
-/

theorem Pos.le_def (a b : Pos) :
    a ≤ b ↔ (a.line < b.line ∨ (a.line = b.line ∧ a.char ≤ b.char)) := Iff.rfl

theorem Pos.lt_def (a b : Pos) :
    a < b ↔ (a.line < b.line ∨ (a.line = b.line ∧ a.char < b.char)) := Iff.rfl

theorem Pos.le_line {a b : Pos} (h : a ≤ b) : a.line ≤ b.line := by
  rcases h with h | ⟨h, _⟩
  · exact Nat.le_of_lt h
  · exact Nat.le_of_eq h

theorem Pos.lt_line {a b : Pos} (h : a < b) : a.line ≤ b.line :=
  Pos.le_line (le_of_lt h)

theorem Pos.compareTo_neg_iff (a b : Pos) : a.compareTo b < 0 ↔ a < b := by
  rcases a with ⟨la, ca⟩; rcases b with ⟨lb, cb⟩
  simp only [Pos.compareTo, Pos.lt_def]
  split <;> omega

theorem Pos.compareTo_nonpos_iff (a b : Pos) : a.compareTo b ≤ 0 ↔ a ≤ b := by
  rcases a with ⟨la, ca⟩; rcases b with ⟨lb, cb⟩
  simp only [Pos.compareTo, Pos.le_def]
  split <;> omega

theorem RDisj.swap {r s : Range'} (h : RDisj r s) : RDisj s r := Or.symm h

theorem RDisj.not_overlap {r s : Range'} (h : RDisj r s) : ¬ Overlap r s := by
  unfold Overlap
  rcases h with h | h
  · exact not_lt.mpr (le_trans (le_trans (min_le_left _ _) h) (le_max_right _ _))
  · exact not_lt.mpr (le_trans (le_trans (min_le_right _ _) h) (le_max_left _ _))

theorem RDisj_of_hulls {r s a b : Range'}
    (ha1 : r.start ≤ a.start) (ha2 : a.stop ≤ r.stop)
    (hb1 : s.start ≤ b.start) (hb2 : b.stop ≤ s.stop)
    (h : RDisj r s) : RDisj a b := by
  rcases h with h | h
  · exact Or.inl (le_trans ha2 (le_trans h hb1))
  · exact Or.inr (le_trans hb2 (le_trans h ha1))

theorem splitDotsAux_ne_nil (cs : List Char) : splitDotsAux cs ≠ [] := by
  cases cs with
  | nil => simp [splitDotsAux]
  | cons c cs =>
    simp only [splitDotsAux]
    cases h : splitDotsAux cs with
    | nil => simp
    | cons g gs => simp only [h]; split <;> simp

theorem splitDots_ne_nil (name : String) : splitDots name ≠ [] := by
  simp [splitDots, splitDotsAux_ne_nil]

theorem parseCaptureName_ok_exists (name : String) :
    ∃ t ms, parseCaptureName name = .ok (t, ms) := by
  unfold parseCaptureName
  cases h : splitDots name with
  | nil => exact absurd h (splitDots_ne_nil name)
  | cons t ms => cases ms <;> exact ⟨_, _, rfl⟩

theorem parseCaptureName_ne_error (name : String) :
    parseCaptureName name ≠ .error .invalidCapture := by
  obtain ⟨t, ms, h⟩ := parseCaptureName_ok_exists name
  simp [h]

theorem classifyCapture_eq (table : Option MappingTable) (capture : HCapture) :
    classifyCapture table capture =
      (if TOKEN_TYPES.contains (mappedCandidate table capture).1 then
        Except.ok [Token.mk (Range'.mk capture.nodeStart capture.nodeStop)
          (mappedCandidate table capture).1
          ((mappedCandidate table capture).2.filter
            (fun m => TOKEN_MODIFIERS.contains m))]
      else Except.ok []) := by
  obtain ⟨t0, m0, h⟩ := parseCaptureName_ok_exists capture.name
  simp only [classifyCapture, mappedCandidate, h, convertPosition]
  rfl

/-!
Section: Lemmas about `splitToken` and `splitAll`
-/

theorem splitToken_of_eq_line {t : Token}
    (h : t.range.start.line = t.range.stop.line) : splitToken t = .ok [t] := by
  simp [splitToken, h]

theorem splitToken_of_rev_line {t : Token}
    (h : t.range.stop.line < t.range.start.line) :
    splitToken t = .error .invalidRange := by
  have h1 : t.range.start.line ≠ t.range.stop.line := by omega
  simp [splitToken, h1, h]

theorem splitToken_of_lt_line {t : Token}
    (h : t.range.start.line < t.range.stop.line) :
    splitToken t = .ok (
      Token.mk (Range'.mk t.range.start (Pos.mk t.range.start.line 100000))
        t.type t.modifiers
      :: (List.range (t.range.stop.line - t.range.start.line - 1)).map (fun i =>
          Token.mk (Range'.mk (Pos.mk (t.range.start.line + i + 1) 0)
            (Pos.mk (t.range.start.line + i + 1) 100000)) t.type t.modifiers)
      ++ [Token.mk (Range'.mk (Pos.mk t.range.stop.line 0) t.range.stop)
            t.type t.modifiers]) := by
  have h1 : t.range.start.line ≠ t.range.stop.line := by omega
  have h2 : ¬ t.range.stop.line < t.range.start.line := by omega
  simp [splitToken, h1, h2]

theorem splitToken_mem {t : Token} {F : List Token} (hF : splitToken t = .ok F) :
    ∀ f ∈ F, f.type = t.type ∧ f.modifiers = t.modifiers ∧
      t.range.start ≤ f.range.start ∧ f.range.stop ≤ t.range.stop ∧
      f.range.start.line = f.range.stop.line := by
  rcases Nat.lt_trichotomy t.range.start.line t.range.stop.line with hlt | heq | hgt
  · rw [splitToken_of_lt_line hlt] at hF
    injection hF with hF
    subst hF
    intro f hf
    rcases List.mem_cons.mp hf with rfl | hf2
    · exact ⟨rfl, rfl, le_refl _, Or.inl hlt, rfl⟩
    rcases List.mem_append.mp hf2 with hmid | hlast
    · obtain ⟨i, hi, rfl⟩ := List.mem_map.mp hmid
      have hi' : i < t.range.stop.line - t.range.start.line - 1 := List.mem_range.mp hi
      exact ⟨rfl, rfl, Or.inl (by dsimp only; omega), Or.inl (by dsimp only; omega), rfl⟩
    · rw [List.mem_singleton] at hlast
      subst hlast
      exact ⟨rfl, rfl, Or.inl hlt, le_refl _, rfl⟩
  · rw [splitToken_of_eq_line heq] at hF
    injection hF with hF
    subst hF
    intro f hf
    rw [List.mem_singleton] at hf
    subst hf
    exact ⟨rfl, rfl, le_refl _, le_refl _, heq⟩
  · rw [splitToken_of_rev_line hgt] at hF
    cases hF

theorem splitToken_chain {t : Token} {F : List Token} (hF : splitToken t = .ok F) :
    List.Pairwise (fun a b => a.range.stop ≤ b.range.start) F := by
  rcases Nat.lt_trichotomy t.range.start.line t.range.stop.line with hlt | heq | hgt
  · rw [splitToken_of_lt_line hlt] at hF
    injection hF with hF
    subst hF
    refine List.Pairwise.cons ?_ (List.pairwise_append.mpr
      ⟨?_, List.pairwise_singleton _ _, ?_⟩)
    · intro b hb
      rcases List.mem_append.mp hb with hmid | hlast
      · obtain ⟨i, hi, rfl⟩ := List.mem_map.mp hmid
        exact Or.inl (by dsimp only; omega)
      · rw [List.mem_singleton] at hlast
        subst hlast
        exact Or.inl hlt
    · rw [List.pairwise_map]
      exact (List.pairwise_lt_range _).imp (fun hij => Or.inl (by dsimp only; omega))
    · intro a ha b hb
      obtain ⟨i, hi, rfl⟩ := List.mem_map.mp ha
      have hi' : i < t.range.stop.line - t.range.start.line - 1 := List.mem_range.mp hi
      rw [List.mem_singleton] at hb
      subst hb
      exact Or.inl (by dsimp only; omega)
  · rw [splitToken_of_eq_line heq] at hF
    injection hF with hF
    subst hF
    exact List.pairwise_singleton _ _
  · rw [splitToken_of_rev_line hgt] at hF
    cases hF

theorem splitAll_mem {ts out : List Token} (h : splitAll ts = .ok out) :
    ∀ o ∈ out, ∃ t ∈ ts, ∃ F, splitToken t = .ok F ∧ o ∈ F := by
  induction ts generalizing out with
  | nil =>
    simp only [splitAll] at h
    injection h with h
    subst h
    intro o ho
    cases ho
  | cons t ts ih =>
    simp only [splitAll] at h
    cases hF : splitToken t with
    | error e => rw [hF] at h; cases h
    | ok F =>
      rw [hF] at h
      cases hrest : splitAll ts with
      | error e => rw [hrest] at h; cases h
      | ok rest =>
        rw [hrest] at h
        injection h with h
        subst h
        intro o ho
        rcases List.mem_append.mp ho with ho | ho
        · exact ⟨t, List.mem_cons_self t ts, F, hF, ho⟩
        · obtain ⟨u, hu, G, hG, hoG⟩ := ih hrest o ho
          exact ⟨u, List.mem_cons_of_mem t hu, G, hG, hoG⟩

theorem splitAll_pairwise {ts out : List Token} (h : splitAll ts = .ok out)
    (hp : List.Pairwise (fun a b => RDisj a.range b.range) ts) :
    List.Pairwise (fun a b => RDisj a.range b.range) out := by
  induction ts generalizing out with
  | nil =>
    simp only [splitAll] at h
    injection h with h
    subst h
    exact List.Pairwise.nil
  | cons t ts ih =>
    simp only [splitAll] at h
    cases hF : splitToken t with
    | error e => rw [hF] at h; cases h
    | ok F =>
      rw [hF] at h
      cases hrest : splitAll ts with
      | error e => rw [hrest] at h; cases h
      | ok rest =>
        rw [hrest] at h
        injection h with h
        subst h
        refine List.pairwise_append.mpr ⟨?_, ?_, ?_⟩
        · exact (splitToken_chain hF).imp (fun hab => Or.inl hab)
        · exact ih hrest hp.of_cons
        · intro a ha b hb
          obtain ⟨_, _, ha1, ha2, _⟩ := splitToken_mem hF a ha
          obtain ⟨u, hu, G, hG, hbG⟩ := splitAll_mem hrest b hb
          obtain ⟨_, _, hb1, hb2, _⟩ := splitToken_mem hG b hbG
          exact RDisj_of_hulls ha1 ha2 hb1 hb2
            (List.rel_of_pairwise_cons hp hu)

/-!
Section: Claim C4 and claim C8
-/

/-- C4: a token whose start and end lines agree is returned unchanged by
`splitToken`; a token whose end line precedes its start line fails with
`InvalidRange`; a token spanning several lines is split into exactly
`endLine - startLine + 1` fragments preserving its type and modifiers — the
first from the original start to the finite sentinel column 100000 on the
start line, one fragment per intermediate line from column 0 to the
sentinel, and the last from column 0 to the original end position. -/
theorem claim_C4_splitToken :
    (∀ t : Token, t.range.start.line = t.range.stop.line →
      splitToken t = Except.ok [t]) ∧
    (∀ t : Token, t.range.stop.line < t.range.start.line →
      splitToken t = Except.error Err.invalidRange) ∧
    (∀ t : Token, t.range.start.line < t.range.stop.line →
      splitToken t = Except.ok (
        Token.mk (Range'.mk t.range.start (Pos.mk t.range.start.line 100000))
          t.type t.modifiers
        :: (List.range (t.range.stop.line - t.range.start.line - 1)).map (fun i =>
            Token.mk (Range'.mk (Pos.mk (t.range.start.line + i + 1) 0)
              (Pos.mk (t.range.start.line + i + 1) 100000)) t.type t.modifiers)
        ++ [Token.mk (Range'.mk (Pos.mk t.range.stop.line 0) t.range.stop)
              t.type t.modifiers])) ∧
    (∀ (t : Token) (out : List Token), t.range.start.line < t.range.stop.line →
      splitToken t = Except.ok out →
      out.length = t.range.stop.line - t.range.start.line + 1) := by
  refine ⟨fun t h => splitToken_of_eq_line h, fun t h => splitToken_of_rev_line h,
    fun t h => splitToken_of_lt_line h, fun t out h hout => ?_⟩
  rw [splitToken_of_lt_line h] at hout
  injection hout with hout
  subst hout
  simp only [List.length_cons, List.length_append, List.length_map,
    List.length_range, List.length_singleton, List.length_nil]
  omega

/-- Witness for C4: the concrete token of the specification's scenario C
(lines 2-4, columns (5, 3)) yields the three described fragments, and a
token whose end line precedes its start line fails with `InvalidRange`. -/
theorem claim_C4_splitToken_witness :
    splitToken (Token.mk (Range'.mk (Pos.mk 2 5) (Pos.mk 4 3)) "comment"
        ["documentation"]) =
      Except.ok
        [Token.mk (Range'.mk (Pos.mk 2 5) (Pos.mk 2 100000)) "comment"
          ["documentation"],
        Token.mk (Range'.mk (Pos.mk 3 0) (Pos.mk 3 100000)) "comment"
          ["documentation"],
        Token.mk (Range'.mk (Pos.mk 4 0) (Pos.mk 4 3)) "comment"
          ["documentation"]] ∧
    splitToken (Token.mk (Range'.mk (Pos.mk 4 5) (Pos.mk 2 3)) "comment" []) =
      Except.error Err.invalidRange := by
  constructor
  · exact (claim_C4_splitToken.2.2.1 _ (by decide)).trans (by rfl)
  · exact claim_C4_splitToken.2.1 _ (by decide)

/-- C8 (the code contradicts the claim): classifying the empty capture name
does not signal `InvalidCapture`.  JavaScript's `"".split(".")` is `[""]`,
so the `parts.length === 0` check of `parseCaptureName` is unreachable (its
`throw new Error("Capture name is empty.")` is dead code): the empty name
parses to base type `""` with no modifiers, and the vocabulary filter then
silently drops the capture, producing no token and no error. -/
theorem claim_C8_empty_capture_name :
    parseCaptureName "" = Except.ok ("", []) ∧
    (∀ name : String, parseCaptureName name ≠ Except.error Err.invalidCapture) ∧
    classifyCapture none (HCapture.mk "" (Pos.mk 0 0) (Pos.mk 0 1)) =
      Except.ok [] :=
  ⟨by rfl, parseCaptureName_ne_error, by rfl⟩

/-- Witness for C8 at a concrete capture name. -/
theorem claim_C8_empty_capture_name_witness :
    parseCaptureName "variable" ≠ Except.error Err.invalidCapture :=
  claim_C8_empty_capture_name.2.1 "variable"

/-!
Section: Lemmas about classification, and claims C3, C6, C7
-/

theorem walkGaps_meta {t : Token} :
    ∀ (S : List Token) (cur : Pos), ∀ g ∈ walkGaps t cur S,
      g.type = t.type ∧ g.modifiers = t.modifiers := by
  intro S
  induction S with
  | nil =>
    intro cur g hg
    simp only [walkGaps] at hg
    split at hg
    · rw [List.mem_singleton] at hg
      subst hg
      exact ⟨rfl, rfl⟩
    · cases hg
  | cons c S ih =>
    intro cur g hg
    simp only [walkGaps] at hg
    rcases List.mem_append.mp hg with hg1 | hg2
    · split at hg1
      · rw [List.mem_singleton] at hg1
        subst hg1
        exact ⟨rfl, rfl⟩
      · cases hg1
    · exact ih _ g hg2

theorem containmentStep_meta {ts : List Token} {t : Token} :
    ∀ a ∈ containmentStep ts t, a.type = t.type ∧ a.modifiers = t.modifiers := by
  intro a ha
  rw [show containmentStep ts t =
      (if (containedIn ts t).length > 0 then
        walkGaps t t.range.start (jsSortByStart (containedIn ts t))
      else [t]) from rfl] at ha
  split at ha
  · exact walkGaps_meta _ _ a ha
  · rw [List.mem_singleton] at ha
    subst ha
    exact ⟨rfl, rfl⟩

theorem resolveContainment_meta {ts : List Token} :
    ∀ a ∈ resolveContainment ts, ∃ t ∈ ts,
      a.type = t.type ∧ a.modifiers = t.modifiers := by
  intro a ha
  obtain ⟨t, ht, ha2⟩ := List.mem_flatMap.mp ha
  exact ⟨t, ht, containmentStep_meta a ha2⟩

theorem classifyAll_vocab {table : Option MappingTable} :
    ∀ {caps : List HCapture} {ts : List Token},
      classifyAll table caps = .ok ts → ∀ tok ∈ ts,
        tok.type ∈ TOKEN_TYPES ∧ ∀ m ∈ tok.modifiers, m ∈ TOKEN_MODIFIERS := by
  intro caps
  induction caps with
  | nil =>
    intro ts h
    simp only [classifyAll] at h
    injection h with h
    subst h
    intro tok htok
    cases htok
  | cons c cs ih =>
    intro ts h
    simp only [classifyAll] at h
    rw [classifyCapture_eq table c] at h
    cases hrest : classifyAll table cs with
    | error e => rw [hrest] at h; split at h <;> cases h
    | ok rest =>
      rw [hrest] at h
      split at h <;> injection h with h <;> subst h
      · rename_i hcont
        intro tok htok
        rcases List.mem_cons.mp htok with rfl | htok2
        · refine ⟨?_, ?_⟩
          · exact List.mem_of_elem_eq_true hcont
          · intro m hm
            have := List.mem_filter.mp hm
            exact List.mem_of_elem_eq_true this.2
        · exact ih hrest tok htok2
      · exact ih hrest

theorem matchesToTokens_ok {table : Option MappingTable}
    {qmatches : List (List HCapture)} {out : List Token}
    (h : matchesToTokens table qmatches = .ok out) :
    ∃ ts, classifyAll table (qmatches.flatMap (fun m => m)) = .ok ts ∧
      normalizeTokens ts = .ok out := by
  unfold matchesToTokens at h
  cases hc : classifyAll table (qmatches.flatMap (fun m => m)) with
  | error e => rw [hc] at h; cases h
  | ok ts =>
    rw [hc] at h
    exact ⟨ts, rfl, h⟩

theorem applyMappings_lookup_full {tbl : MappingTable} {name : String}
    (type : String) (modifiers : List String) {m : SemanticTokenTypeMapping}
    (h : tbl.lookup name = some m) :
    applyMappings (some tbl) name type modifiers =
      (m.targetTokenType, m.targetTokenModifiers.getD modifiers) := by
  simp only [applyMappings, h]
  cases m.targetTokenModifiers <;> rfl

theorem applyMappings_lookup_base {tbl : MappingTable} {name type : String}
    (modifiers : List String) {m : SemanticTokenTypeMapping}
    (h1 : tbl.lookup name = none) (h2 : tbl.lookup type = some m) :
    applyMappings (some tbl) name type modifiers =
      (m.targetTokenType, m.targetTokenModifiers.getD modifiers) := by
  simp only [applyMappings, h1, h2]
  cases m.targetTokenModifiers <;> rfl

theorem applyMappings_lookup_none {tbl : MappingTable} {name type : String}
    (modifiers : List String)
    (h1 : tbl.lookup name = none) (h2 : tbl.lookup type = none) :
    applyMappings (some tbl) name type modifiers = (type, modifiers) := by
  simp only [applyMappings, h1, h2]

/-- C3: for every capture name and mapping table, classification looks up
the entire original dotted capture name first; only if no such entry exists
does it look up the base type; only if neither exists are the derived type
and modifiers kept unchanged (an absent table also leaves them
unchanged). -/
theorem claim_C3_mapping_precedence :
    (∀ (tbl : MappingTable) (name type : String) (modifiers : List String)
        (m : SemanticTokenTypeMapping), tbl.lookup name = some m →
      applyMappings (some tbl) name type modifiers =
        (m.targetTokenType, m.targetTokenModifiers.getD modifiers)) ∧
    (∀ (tbl : MappingTable) (name type : String) (modifiers : List String)
        (m : SemanticTokenTypeMapping),
      tbl.lookup name = none → tbl.lookup type = some m →
      applyMappings (some tbl) name type modifiers =
        (m.targetTokenType, m.targetTokenModifiers.getD modifiers)) ∧
    (∀ (tbl : MappingTable) (name type : String) (modifiers : List String),
      tbl.lookup name = none → tbl.lookup type = none →
      applyMappings (some tbl) name type modifiers = (type, modifiers)) ∧
    (∀ (name type : String) (modifiers : List String),
      applyMappings none name type modifiers = (type, modifiers)) :=
  ⟨fun _ _ type modifiers _ h => applyMappings_lookup_full type modifiers h,
   fun _ _ _ modifiers _ h1 h2 => applyMappings_lookup_base modifiers h1 h2,
   fun _ _ _ modifiers h1 h2 => applyMappings_lookup_none modifiers h1 h2,
   fun _ _ _ => rfl⟩

/-- Witness for C3: a table holding both a full-name entry for
`variable.parameter` and a base-type entry for `variable` resolves a
capture literally named `variable.parameter` via the full-name entry
(the derived pair of that capture name is `("variable", ["parameter"])`). -/
theorem claim_C3_mapping_precedence_witness :
    applyMappings
        (some [("variable.parameter", SemanticTokenTypeMapping.mk "parameter" (some [])),
               ("variable", SemanticTokenTypeMapping.mk "property" (some ["static"]))])
        "variable.parameter" "variable" ["parameter"] = ("parameter", []) :=
  claim_C3_mapping_precedence.1 _ "variable.parameter" "variable" ["parameter"]
    (SemanticTokenTypeMapping.mk "parameter" (some [])) (by rfl)

/-- C6: after mapping, a capture is emitted exactly when its mapped type is
in the fixed `TOKEN_TYPES` vocabulary (otherwise it is silently dropped,
producing no token and no error), its modifiers outside `TOKEN_MODIFIERS`
are removed individually while the token survives; consequently every token
emitted by `matchesToTokens` has a type in the type vocabulary and
modifiers in the modifier vocabulary. -/
theorem claim_C6_vocabulary_filter :
    (∀ (table : Option MappingTable) (capture : HCapture),
      (mappedCandidate table capture).1 ∈ TOKEN_TYPES →
      classifyCapture table capture = Except.ok
        [Token.mk (Range'.mk capture.nodeStart capture.nodeStop)
          (mappedCandidate table capture).1
          ((mappedCandidate table capture).2.filter
            (fun m => TOKEN_MODIFIERS.contains m))]) ∧
    (∀ (table : Option MappingTable) (capture : HCapture),
      (mappedCandidate table capture).1 ∉ TOKEN_TYPES →
      classifyCapture table capture = Except.ok []) ∧
    (∀ (table : Option MappingTable) (qmatches : List (List HCapture))
        (out : List Token), matchesToTokens table qmatches = Except.ok out →
      ∀ tok ∈ out, tok.type ∈ TOKEN_TYPES ∧
        ∀ m ∈ tok.modifiers, m ∈ TOKEN_MODIFIERS) := by
  refine ⟨?_, ?_, ?_⟩
  · intro table capture hmem
    rw [classifyCapture_eq table capture, if_pos (List.elem_eq_true_of_mem hmem)]
  · intro table capture hmem
    rw [classifyCapture_eq table capture, if_neg ?_]
    intro hcont
    exact hmem (List.mem_of_elem_eq_true hcont)
  · intro table qmatches out h tok htok
    obtain ⟨ts, hc, hn⟩ := matchesToTokens_ok h
    unfold normalizeTokens at hn
    obtain ⟨t, ht, F, hF, htokF⟩ := splitAll_mem hn tok htok
    obtain ⟨hty, hmods, _, _, _⟩ := splitToken_mem hF tok htokF
    obtain ⟨u, hu, hty2, hmods2⟩ := resolveContainment_meta t ht
    have := classifyAll_vocab hc u hu
    rw [hty, hty2, hmods, hmods2]
    exact this

/-- Witness for C6: a capture named `keyword.async.helper` with no table
yields a `keyword` token with the unknown modifier `helper` removed, and a
capture named `injection.content` is silently dropped. -/
theorem claim_C6_vocabulary_filter_witness :
    classifyCapture none (HCapture.mk "keyword.async.helper" (Pos.mk 0 0) (Pos.mk 0 5)) =
      Except.ok [Token.mk (Range'.mk (Pos.mk 0 0) (Pos.mk 0 5)) "keyword" ["async"]] ∧
    classifyCapture none (HCapture.mk "injection.content" (Pos.mk 0 0) (Pos.mk 0 5)) =
      Except.ok [] := by
  constructor
  · exact (claim_C6_vocabulary_filter.1 none _ (by decide)).trans (by rfl)
  · exact claim_C6_vocabulary_filter.2.1 none _ (by decide)

/-- C7 counterexample: the capture name `constant.readonly` with a
base-type mapping entry for `constant` whose `targetTokenModifiers` field
is omitted yields the candidate `("variable", ["readonly"])` — the
modifiers derived from the dotted name are kept, not replaced by the empty
list as the claim states. -/
theorem claim_C7_counterexample :
    mappedCandidate
        (some [("constant", SemanticTokenTypeMapping.mk "variable" none)])
        (HCapture.mk "constant.readonly" (Pos.mk 0 0) (Pos.mk 0 2)) =
      ("variable", ["readonly"]) ∧
    ¬ (mappedCandidate
        (some [("constant", SemanticTokenTypeMapping.mk "variable" none)])
        (HCapture.mk "constant.readonly" (Pos.mk 0 0) (Pos.mk 0 2))).2 = [] :=
  ⟨by rfl, by decide⟩

/-- C7 amended: when the mapping entry that applies (full-name or
base-type) omits `targetTokenModifiers`, the candidate keeps the modifiers
derived from the capture name's dotted segments — only the type is
substituted. -/
theorem claim_C7_amended :
    (∀ (tbl : MappingTable) (name type : String) (modifiers : List String)
        (m : SemanticTokenTypeMapping), tbl.lookup name = some m →
      m.targetTokenModifiers = none →
      applyMappings (some tbl) name type modifiers = (m.targetTokenType, modifiers)) ∧
    (∀ (tbl : MappingTable) (name type : String) (modifiers : List String)
        (m : SemanticTokenTypeMapping),
      tbl.lookup name = none → tbl.lookup type = some m →
      m.targetTokenModifiers = none →
      applyMappings (some tbl) name type modifiers = (m.targetTokenType, modifiers)) := by
  constructor
  · intro tbl name type modifiers m h hm
    rw [applyMappings_lookup_full type modifiers h, hm]
    rfl
  · intro tbl name type modifiers m h1 h2 hm
    rw [applyMappings_lookup_base modifiers h1 h2, hm]
    rfl

/-- Witness for C7 (amended): the counterexample input evaluated through
the amended statement. -/
theorem claim_C7_amended_witness :
    applyMappings (some [("constant", SemanticTokenTypeMapping.mk "variable" none)])
      "constant.readonly" "constant" ["readonly"] = ("variable", ["readonly"]) :=
  claim_C7_amended.2 [("constant", SemanticTokenTypeMapping.mk "variable" none)]
    "constant.readonly" "constant" ["readonly"]
    (SemanticTokenTypeMapping.mk "variable" none) (by rfl) (by rfl) (by rfl)

/-!
Section: Claim C2 — the injection merge
-/

theorem clip_filter_flatMap (r : Range') (tokens : List Token) :
    (tokens.filter (fun token => decide (¬ r.containsRange token.range))).flatMap
      (fun token => match token.range.intersection r with
        | some _ =>
          (if token.range.start < r.start then
            [Token.mk (Range'.mk token.range.start r.start)
              token.type token.modifiers]
          else []) ++
          (if r.stop < token.range.stop then
            [Token.mk (Range'.mk r.stop token.range.stop)
              token.type token.modifiers]
          else [])
        | none => [token])
    = tokens.flatMap (clipTokenSpec r) := by
  induction tokens with
  | nil => rfl
  | cons t ts ih =>
    rw [List.filter_cons, List.flatMap_cons]
    by_cases hc : r.containsRange t.range
    · rw [show decide (¬ r.containsRange t.range) = false by simp [hc]]
      rw [show clipTokenSpec r t = [] from if_pos hc]
      simpa using ih
    · rw [show decide (¬ r.containsRange t.range) = true by simp [hc]]
      simp only [if_true, List.flatMap_cons]
      rw [show clipTokenSpec r t =
          (if (t.range.intersection r).isSome then
            (if t.range.start < r.start then
              [Token.mk (Range'.mk t.range.start r.start)
                t.type t.modifiers]
            else []) ++
            (if r.stop < t.range.stop then
              [Token.mk (Range'.mk r.stop t.range.stop)
                t.type t.modifiers]
            else [])
          else [t]) from if_neg hc]
      rw [ih]
      congr 1
      cases hi : t.range.intersection r <;> simp [hi]

theorem mergeStep_eq_spec (tokens : List Token) (injection : Injection) :
    mergeStep tokens injection = mergeStepSpec tokens injection := by
  have hms : mergeStep tokens injection =
      (if injection.tokens.length > 0 then
        (tokens.filter (fun token =>
            decide (¬ injection.range.containsRange token.range))).flatMap
          (fun token => match token.range.intersection injection.range with
            | some _ =>
              (if token.range.start < injection.range.start then
                [Token.mk (Range'.mk token.range.start injection.range.start)
                  token.type token.modifiers]
              else []) ++
              (if injection.range.stop < token.range.stop then
                [Token.mk (Range'.mk injection.range.stop token.range.stop)
                  token.type token.modifiers]
              else [])
            | none => [token])
      else tokens) := rfl
  rw [hms]
  unfold mergeStepSpec
  by_cases h : injection.tokens = []
  · rw [if_neg (by simp [h]), if_pos h]
  · rw [if_pos (List.length_pos.mpr h), if_neg h]
    exact clip_filter_flatMap injection.range tokens

/-- C2: the injection merge of `parseToTokens` coincides, for every parent
token list and every injection list, with the merge described by the claim:
per injection with non-empty resolved tokens, parent tokens fully contained
in the injection range are dropped and parent tokens intersecting it
without being contained are replaced by their fragment before the injection
start (when their start precedes it) and/or after the injection end (when
their end follows it); injections with empty token lists leave the parent
tokens completely unchanged; finally all injection token lists are appended
after the surviving parent fragments. -/
theorem claim_C2_merge_refines_spec :
    ∀ (tokens : List Token) (injections : List Injection),
      mergeInjections tokens injections = mergeInjectionsSpec tokens injections := by
  intro tokens injections
  unfold mergeInjections mergeInjectionsSpec
  have h : mergeStep = mergeStepSpec :=
    funext (fun t => funext (fun i => mergeStep_eq_spec t i))
  rw [h]

/-!
Section: Claims C10 and C9 — injection language discovery and the mapping
table consulted during injections
-/

/-- C10 counterexample: a match with no directive-set language whose
`injection.language` capture has the empty node text `""` — not a
configured language identifier (the only configured language is `foo`) —
still yields an injection: JavaScript's `||` treats the empty string as
falsy, so the language selection falls through to the name-as-language
capture `foo`, while the content capture is still selected by the name
`injection.content`.  The claim says such a match yields no injection. -/
theorem claim_C10_counterexample :
    getInjectionWith (fun _ _ => Except.ok []) (Ctx.mk ["foo"] none)
      (IMatch.mk none
        [ICapture.mk "injection.language" "" (Pos.mk 0 0) (Pos.mk 0 0) [],
         ICapture.mk "injection.content" "xyz" (Pos.mk 0 1) (Pos.mk 0 4) [],
         ICapture.mk "foo" "xyz" (Pos.mk 0 1) (Pos.mk 0 4) []]) =
      Except.ok (some (Injection.mk (Range'.mk (Pos.mk 0 1) (Pos.mk 0 4)) [])) := by
  rfl

/-- C10 amended: if a match carries no directive-set language and contains
an `injection.language` capture whose node text is non-empty and is not a
configured language identifier, then the match yields no injection
(`getInjection` returns null), even when the match also contains a capture
whose name equals a configured language identifier — the name-as-language
rule is not used as a fallback.  (With an empty node text the dynamic value
is falsy, the `||` chain skips it, and the name-as-language rule can apply:
see the counterexample.) -/
theorem claim_C10_amended :
    ∀ (recurse : Scen → Pos → Except Err (List Token)) (ctx : Ctx)
      (m : IMatch) (c : ICapture),
      m.setLang = none →
      m.captures.find? (fun c => c.name = "injection.language") = some c →
      c.text ≠ "" →
      ctx.langs.contains c.text = false →
      getInjectionWith recurse ctx m = Except.ok none := by
  intro recurse ctx m c hset hfind htext hlang
  have hnotmem : ¬ c.text ∈ ctx.langs := by
    intro hmem
    have h2 : ctx.langs.contains c.text = true := List.elem_eq_true_of_mem hmem
    rw [h2] at hlang
    cases hlang
  unfold getInjectionWith
  rw [hset, hfind]
  cases hcap : m.captures.find? (fun c => c.name = "injection.content") with
  | none => simp [jsOrString, htext, hcap]
  | some cap => simp [jsOrString, htext, hcap, hnotmem, hlang]

/-- Witness for C10 (amended): a concrete match with a non-empty,
unconfigured `injection.language` text and a configured-language-named
capture yields no injection. -/
theorem claim_C10_amended_witness :
    getInjectionWith (fun _ _ => Except.ok []) (Ctx.mk ["foo"] none)
      (IMatch.mk none
        [ICapture.mk "injection.language" "python" (Pos.mk 0 0) (Pos.mk 0 6) [],
         ICapture.mk "injection.content" "xyz" (Pos.mk 0 7) (Pos.mk 0 10) [],
         ICapture.mk "foo" "xyz" (Pos.mk 0 7) (Pos.mk 0 10) []]) =
      Except.ok none :=
  claim_C10_amended (fun _ _ => Except.ok []) (Ctx.mk ["foo"] none) _
    (ICapture.mk "injection.language" "python" (Pos.mk 0 0) (Pos.mk 0 6) [])
    (by rfl) (by rfl) (by decide) (by rfl)

/-- C9: every classification performed during a highlight request —
including those for injected languages — consults the mapping table of the
language stored in the provider's `currentLanguage` field, which is the
top-level document's language: the result of
`provideDocumentSemanticTokens` depends only on the configured language
identifiers and on the document language's own `semanticTokenTypeMappings`;
an injected language's own mapping table is never applied to its tokens. -/
theorem claim_C9_doc_language_table :
    ∀ (fuel : Nat) (docLang : String) (scen : Scen)
      (configs configs' : List LangConfig),
      configs.map (fun c => c.lang) = configs'.map (fun c => c.lang) →
      mappingsFor configs docLang = mappingsFor configs' docLang →
      provideDocumentSemanticTokens fuel configs docLang scen =
        provideDocumentSemanticTokens fuel configs' docLang scen := by
  intro fuel docLang scen configs configs' hlangs hmaps
  unfold provideDocumentSemanticTokens
  unfold mappingsFor at hmaps
  cases h1 : configs.find? (fun c => c.lang = docLang) with
  | none =>
    cases h2 : configs'.find? (fun c => c.lang = docLang) with
    | none => rfl
    | some c' => rw [h1, h2] at hmaps; cases hmaps
  | some c =>
    cases h2 : configs'.find? (fun c => c.lang = docLang) with
    | none => rw [h1, h2] at hmaps; cases hmaps
    | some c' =>
      rw [h1, h2] at hmaps
      injection hmaps with hmaps
      dsimp only at hmaps ⊢
      rw [hlangs, hmaps]

/-- Witness for C9: changing only the injected language's mapping table
(between two configurations for `sub`) does not change the output of a
request for a `doc` document. -/
theorem claim_C9_doc_language_table_witness :
    provideDocumentSemanticTokens 1
      [LangConfig.mk "doc" none,
       LangConfig.mk "sub" (some [("constant", SemanticTokenTypeMapping.mk "variable" none)])]
      "doc" (Scen.mk [[HCapture.mk "keyword" (Pos.mk 0 0) (Pos.mk 0 2)]] none) =
    provideDocumentSemanticTokens 1
      [LangConfig.mk "doc" none, LangConfig.mk "sub" (some [])]
      "doc" (Scen.mk [[HCapture.mk "keyword" (Pos.mk 0 0) (Pos.mk 0 2)]] none) :=
  claim_C9_doc_language_table 1 "doc"
    (Scen.mk [[HCapture.mk "keyword" (Pos.mk 0 0) (Pos.mk 0 2)]] none)
    [LangConfig.mk "doc" none,
     LangConfig.mk "sub" (some [("constant", SemanticTokenTypeMapping.mk "variable" none)])]
    [LangConfig.mk "doc" none, LangConfig.mk "sub" (some [])]
    (by rfl) (by rfl)

/-!
Section: Lemmas about the stable sort used by the containment pass
-/

theorem compareByStart_true_iff (a b : Token) :
    compareByStart a b = true ↔ a.range.start ≤ b.range.start := by
  simp [compareByStart, Pos.compareTo_nonpos_iff]

theorem insertSorted_perm (x : Token) (l : List Token) :
    (insertSorted x l).Perm (x :: l) := by
  induction l with
  | nil => exact List.Perm.refl _
  | cons y ys ih =>
    simp only [insertSorted]
    split
    · exact List.Perm.refl _
    · exact (ih.cons y).trans (List.Perm.swap x y ys)

theorem jsSortByStart_perm (l : List Token) : (jsSortByStart l).Perm l := by
  induction l with
  | nil => exact List.Perm.refl _
  | cons x xs ih =>
    exact (insertSorted_perm x (jsSortByStart xs)).trans (ih.cons x)

theorem mem_insertSorted {b x : Token} {l : List Token} :
    b ∈ insertSorted x l ↔ b = x ∨ b ∈ l := by
  rw [(insertSorted_perm x l).mem_iff, List.mem_cons]

theorem insertSorted_pairwise {x : Token} {l : List Token}
    (h : List.Pairwise (fun a b => a.range.start ≤ b.range.start) l) :
    List.Pairwise (fun a b => a.range.start ≤ b.range.start) (insertSorted x l) := by
  induction l with
  | nil => exact List.pairwise_singleton _ _
  | cons y ys ih =>
    simp only [insertSorted]
    split
    · rename_i hxy
      have hxy' : x.range.start ≤ y.range.start := (compareByStart_true_iff x y).mp hxy
      refine List.Pairwise.cons ?_ h
      intro b hb
      rcases List.mem_cons.mp hb with rfl | hb2
      · exact hxy'
      · exact le_trans hxy' (List.rel_of_pairwise_cons h hb2)
    · rename_i hxy
      have hyx : y.range.start ≤ x.range.start := by
        rcases le_total x.range.start y.range.start with hle | hle
        · exact absurd ((compareByStart_true_iff x y).mpr hle) hxy
        · exact hle
      refine List.Pairwise.cons ?_ (ih h.of_cons)
      intro b hb
      rcases mem_insertSorted.mp hb with rfl | hb2
      · exact hyx
      · exact List.rel_of_pairwise_cons h hb2

theorem jsSortByStart_sorted (l : List Token) :
    List.Pairwise (fun a b => a.range.start ≤ b.range.start) (jsSortByStart l) := by
  induction l with
  | nil => exact List.Pairwise.nil
  | cons x xs ih => exact insertSorted_pairwise ih

/-!
Section: The gap walk produces separated gaps avoiding the contained tokens
-/

theorem walkGaps_spec {t : Token} :
    ∀ (S : List Token) (cur : Pos),
      (∀ c ∈ S, c.range.start < c.range.stop) →
      (∀ c ∈ S, cur ≤ c.range.start) →
      (∀ c ∈ S, c.range.stop ≤ t.range.stop) →
      List.Pairwise (fun a b => a.range.stop ≤ b.range.start) S →
      (∀ g ∈ walkGaps t cur S,
        cur ≤ g.range.start ∧ g.range.start < g.range.stop ∧
          g.range.stop ≤ t.range.stop) ∧
      List.Pairwise (fun a b => a.range.stop ≤ b.range.start) (walkGaps t cur S) ∧
      (∀ c ∈ S, ∀ g ∈ walkGaps t cur S, RDisj g.range c.range) := by
  intro S
  induction S with
  | nil =>
    intro cur _ _ _ _
    refine ⟨?_, ?_, ?_⟩
    · intro g hg
      simp only [walkGaps] at hg
      split at hg
      · rename_i hcmp
        rw [List.mem_singleton] at hg
        subst hg
        exact ⟨le_refl _, (Pos.compareTo_neg_iff _ _).mp hcmp, le_refl _⟩
      · cases hg
    · simp only [walkGaps]
      split
      · exact List.pairwise_singleton _ _
      · exact List.Pairwise.nil
    · intro c hc
      cases hc
  | cons c S ih =>
    intro cur hne hcur hstop hpw
    have hcne : c.range.start < c.range.stop := hne c (List.mem_cons_self c S)
    have hccur : cur ≤ c.range.start := hcur c (List.mem_cons_self c S)
    have hcstop : c.range.stop ≤ t.range.stop := hstop c (List.mem_cons_self c S)
    obtain ⟨ihmem, ihpw, ihdisj⟩ := ih c.range.stop
      (fun u hu => hne u (List.mem_cons_of_mem c hu))
      (fun u hu => List.rel_of_pairwise_cons hpw hu)
      (fun u hu => hstop u (List.mem_cons_of_mem c hu))
      hpw.of_cons
    have hGdef : walkGaps t cur (c :: S) =
        (if Pos.compareTo cur c.range.start < 0 then
          [Token.mk (Range'.mk cur c.range.start) t.type t.modifiers]
        else []) ++ walkGaps t c.range.stop S := rfl
    refine ⟨?_, ?_, ?_⟩
    · intro g hg
      rw [hGdef] at hg
      rcases List.mem_append.mp hg with hg1 | hg2
      · split at hg1
        · rename_i hcmp
          rw [List.mem_singleton] at hg1
          subst hg1
          refine ⟨le_refl _, (Pos.compareTo_neg_iff _ _).mp hcmp, ?_⟩
          exact le_trans (le_of_lt hcne) hcstop
        · cases hg1
      · obtain ⟨hg1, hg2', hg3⟩ := ihmem g hg2
        exact ⟨le_trans hccur (le_trans (le_of_lt hcne) hg1), hg2', hg3⟩
    · rw [hGdef]
      refine List.pairwise_append.mpr ⟨?_, ihpw, ?_⟩
      · split
        · exact List.pairwise_singleton _ _
        · exact List.Pairwise.nil
      · intro a ha b hb
        split at ha
        · rw [List.mem_singleton] at ha
          subst ha
          obtain ⟨hb1, _, _⟩ := ihmem b hb
          exact le_trans (le_of_lt hcne) hb1
        · cases ha
    · intro c0 hc0 g hg
      rw [hGdef] at hg
      rcases List.mem_cons.mp hc0 with rfl | hc0S
      · rcases List.mem_append.mp hg with hg1 | hg2
        · split at hg1
          · rw [List.mem_singleton] at hg1
            subst hg1
            exact Or.inl (le_refl _)
          · cases hg1
        · exact Or.inr (ihmem g hg2).1
      · rcases List.mem_append.mp hg with hg1 | hg2
        · split at hg1
          · rw [List.mem_singleton] at hg1
            subst hg1
            refine Or.inl ?_
            exact le_trans (le_of_lt hcne) (List.rel_of_pairwise_cons hpw hc0S)
          · cases hg1
        · exact ihdisj c0 hc0S g hg2

/-!
Section: Claim C1 — containment resolution and non-overlap
-/

theorem containedIn_mem_iff {ts : List Token} {t c : Token} :
    c ∈ containedIn ts t ↔ c ∈ ts ∧ strictIn c.range t.range := by
  unfold containedIn strictIn
  rw [List.mem_filter, decide_eq_true_iff]
  constructor
  · rintro ⟨hmem, hneq, hcont⟩
    exact ⟨hmem, hcont, hneq⟩
  · rintro ⟨hmem, hcont, hneq⟩
    exact ⟨hmem, hneq, hcont⟩

theorem containmentStep_spec {ts : List Token} {t : Token}
    (hne : ∀ u ∈ ts, u.range.start < u.range.stop)
    (hlam : List.Pairwise TokLaminar ts)
    (h3 : NoThreeChain ts)
    (htmem : t ∈ ts) :
    (∀ a ∈ containmentStep ts t,
      t.range.start ≤ a.range.start ∧ a.range.stop ≤ t.range.stop ∧
      a.range.start < a.range.stop ∧
      (∀ c ∈ ts, strictIn c.range t.range → RDisj a.range c.range)) ∧
    List.Pairwise (fun a b => a.range.stop ≤ b.range.start)
      (containmentStep ts t) := by
  have hstep : containmentStep ts t =
      (if (containedIn ts t).length > 0 then
        walkGaps t t.range.start (jsSortByStart (containedIn ts t))
      else [t]) := rfl
  by_cases hlen : (containedIn ts t).length > 0
  · have hmemS : ∀ c, c ∈ jsSortByStart (containedIn ts t) ↔
        c ∈ ts ∧ strictIn c.range t.range :=
      fun c => (jsSortByStart_perm _).mem_iff.trans containedIn_mem_iff
    have hpwC : List.Pairwise (fun a b => RDisj a.range b.range)
        (containedIn ts t) := by
      refine (List.Pairwise.sublist (List.filter_sublist ts) hlam).imp_of_mem
        (fun ha hb hl => ?_)
      rename_i a b
      have ha' := containedIn_mem_iff.mp ha
      have hb' := containedIn_mem_iff.mp hb
      rcases hl with hd | hab | hba
      · exact hd
      · exact absurd hab (fun hab =>
          h3 t htmem b hb'.1 a ha'.1 hb'.2 hab)
      · exact absurd hba (fun hba =>
          h3 t htmem a ha'.1 b hb'.1 ha'.2 hba)
    have hpwS : List.Pairwise (fun a b => RDisj a.range b.range)
        (jsSortByStart (containedIn ts t)) :=
      hpwC.perm (jsSortByStart_perm _).symm (fun hab => hab.swap)
    have hpwStopLe : List.Pairwise (fun a b => a.range.stop ≤ b.range.start)
        (jsSortByStart (containedIn ts t)) := by
      refine ((jsSortByStart_sorted _).and hpwS).imp_of_mem
        (fun ha hb hl => ?_)
      rename_i a b
      obtain ⟨hle, hd⟩ := hl
      rcases hd with hd | hd
      · exact hd
      · have hbne : b.range.start < b.range.stop :=
          hne b ((hmemS b).mp hb).1
        exact absurd (lt_of_lt_of_le hbne (le_trans hd hle)) (lt_irrefl _)
    obtain ⟨wmem, wpw, wdisj⟩ := walkGaps_spec (t := t)
      (jsSortByStart (containedIn ts t)) t.range.start
      (fun c hc => hne c ((hmemS c).mp hc).1)
      (fun c hc => ((hmemS c).mp hc).2.1.1.1)
      (fun c hc => ((hmemS c).mp hc).2.1.2.2)
      hpwStopLe
    rw [hstep, if_pos hlen]
    refine ⟨?_, wpw⟩
    intro a ha
    obtain ⟨h1, h2, h3'⟩ := wmem a ha
    refine ⟨h1, h3', h2, ?_⟩
    intro c hc hsc
    exact wdisj c ((hmemS c).mpr ⟨hc, hsc⟩) a ha
  · have hempty : containedIn ts t = [] := by
      cases h : containedIn ts t with
      | nil => rfl
      | cons x xs => rw [h] at hlen; simp at hlen
    rw [hstep, if_neg hlen]
    refine ⟨?_, List.pairwise_singleton _ _⟩
    intro a ha
    rw [List.mem_singleton] at ha
    subst ha
    refine ⟨le_refl _, le_refl _, hne _ htmem, ?_⟩
    intro c hc hsc
    have hmemC := containedIn_mem_iff.mpr ⟨hc, hsc⟩
    rw [hempty] at hmemC
    cases hmemC

theorem pairwise_flatMap {α β : Type} {f : α → List β} {S : β → β → Prop}
    {l : List α}
    (h1 : ∀ x ∈ l, List.Pairwise S (f x))
    (h2 : List.Pairwise (fun x y => ∀ a ∈ f x, ∀ b ∈ f y, S a b) l) :
    List.Pairwise S (l.flatMap f) := by
  induction l with
  | nil => exact List.Pairwise.nil
  | cons x xs ih =>
    rw [List.flatMap_cons]
    refine List.pairwise_append.mpr
      ⟨h1 x (List.mem_cons_self x xs),
       ih (fun y hy => h1 y (List.mem_cons_of_mem x hy)) h2.of_cons, ?_⟩
    intro a ha b hb
    obtain ⟨y, hy, hbfy⟩ := List.mem_flatMap.mp hb
    exact List.rel_of_pairwise_cons h2 hy a ha b hbfy

theorem containmentStep_cross {ts : List Token} {t u : Token}
    (hne : ∀ w ∈ ts, w.range.start < w.range.stop)
    (hlam : List.Pairwise TokLaminar ts)
    (h3 : NoThreeChain ts)
    (htmem : t ∈ ts) (humem : u ∈ ts)
    (hlamtu : TokLaminar t u) :
    ∀ a ∈ containmentStep ts t, ∀ b ∈ containmentStep ts u,
      RDisj a.range b.range := by
  intro a ha b hb
  obtain ⟨ha1, ha2, _, ha4⟩ := (containmentStep_spec hne hlam h3 htmem).1 a ha
  obtain ⟨hb1, hb2, _, hb4⟩ := (containmentStep_spec hne hlam h3 humem).1 b hb
  rcases hlamtu with hd | hsu | hst
  · exact RDisj_of_hulls ha1 ha2 hb1 hb2 hd
  · exact RDisj_of_hulls ha1 ha2 (le_refl _) (le_refl _) (hb4 t htmem hsu).swap
  · exact RDisj_of_hulls (le_refl _) (le_refl _) hb1 hb2 (ha4 u humem hst)

theorem resolveContainment_spec {ts : List Token}
    (hne : ∀ u ∈ ts, u.range.start < u.range.stop)
    (hlam : List.Pairwise TokLaminar ts)
    (h3 : NoThreeChain ts) :
    List.Pairwise (fun a b => RDisj a.range b.range) (resolveContainment ts) := by
  refine pairwise_flatMap (fun t ht => ?_) ?_
  · exact ((containmentStep_spec hne hlam h3 ht).2).imp (fun h => Or.inl h)
  · exact hlam.imp_of_mem (fun htm hum hl =>
      containmentStep_cross hne hlam h3 htm hum hl)

/-- C1 counterexample: three tokens in strict triple nesting
(`[0,10) ⊃ [2,8) ⊃ [3,4)` on line 0) — a shape the containment pass of
`matchesToTokens` computes independently per token — normalize to a list in
which the trailing gap of the outermost token, `[4,10)`, overlaps the
trailing gap of the middle token, `[4,8)`: the claimed pairwise non-overlap
of the output fails. -/
theorem claim_C1_counterexample :
    normalizeTokens
      [Token.mk (Range'.mk (Pos.mk 0 0) (Pos.mk 0 10)) "keyword" [],
       Token.mk (Range'.mk (Pos.mk 0 2) (Pos.mk 0 8)) "string" [],
       Token.mk (Range'.mk (Pos.mk 0 3) (Pos.mk 0 4)) "number" []] =
      Except.ok
        [Token.mk (Range'.mk (Pos.mk 0 0) (Pos.mk 0 2)) "keyword" [],
         Token.mk (Range'.mk (Pos.mk 0 4) (Pos.mk 0 10)) "keyword" [],
         Token.mk (Range'.mk (Pos.mk 0 2) (Pos.mk 0 3)) "string" [],
         Token.mk (Range'.mk (Pos.mk 0 4) (Pos.mk 0 8)) "string" [],
         Token.mk (Range'.mk (Pos.mk 0 3) (Pos.mk 0 4)) "number" []] ∧
    Overlap (Range'.mk (Pos.mk 0 4) (Pos.mk 0 10))
      (Range'.mk (Pos.mk 0 4) (Pos.mk 0 8)) ∧
    ¬ List.Pairwise (fun a b => ¬ Overlap a.range b.range)
      [Token.mk (Range'.mk (Pos.mk 0 0) (Pos.mk 0 2)) "keyword" [],
       Token.mk (Range'.mk (Pos.mk 0 4) (Pos.mk 0 10)) "keyword" [],
       Token.mk (Range'.mk (Pos.mk 0 2) (Pos.mk 0 3)) "string" [],
       Token.mk (Range'.mk (Pos.mk 0 4) (Pos.mk 0 8)) "string" [],
       Token.mk (Range'.mk (Pos.mk 0 3) (Pos.mk 0 4)) "number" []] := by
  refine ⟨by rfl, by decide, ?_⟩
  intro hpw
  have := List.rel_of_pairwise_cons hpw.of_cons
    (show (Token.mk (Range'.mk (Pos.mk 0 4) (Pos.mk 0 8)) "string" []) ∈ _ by
      simp)
  exact this (by decide)

/-- C1 amended: for every flat list of classified tokens whose ranges are
non-degenerate, pairwise either separated or strictly nested (the laminar
shape of tree-sitter capture ranges without duplicate ranges), and without
any three-level strict-nesting chain, the containment-resolution pass of
`matchesToTokens` followed by line splitting yields a list in which every
two distinct tokens have non-overlapping ranges.  (The counterexample shows
the claim fails as stated once a three-level chain — or a duplicated
range — occurs, which the specification itself flags as unverified.) -/
theorem claim_C1_amended :
    ∀ (ts out : List Token),
      (∀ t ∈ ts, t.range.start < t.range.stop) →
      List.Pairwise TokLaminar ts →
      NoThreeChain ts →
      normalizeTokens ts = Except.ok out →
      List.Pairwise (fun a b => ¬ Overlap a.range b.range) out := by
  intro ts out hne hlam h3 hout
  unfold normalizeTokens at hout
  exact (splitAll_pairwise hout (resolveContainment_spec hne hlam h3)).imp
    (fun h => h.not_overlap)

/-- Witness for C1 (amended): a string token strictly containing a keyword
token normalizes to the two gap fragments and the inner token, pairwise
non-overlapping. -/
theorem claim_C1_amended_witness :
    List.Pairwise (fun a b => ¬ Overlap a.range b.range)
      [Token.mk (Range'.mk (Pos.mk 0 0) (Pos.mk 0 2)) "string" [],
       Token.mk (Range'.mk (Pos.mk 0 4) (Pos.mk 0 6)) "string" [],
       Token.mk (Range'.mk (Pos.mk 0 2) (Pos.mk 0 4)) "keyword" []] :=
  claim_C1_amended
    [Token.mk (Range'.mk (Pos.mk 0 0) (Pos.mk 0 6)) "string" [],
     Token.mk (Range'.mk (Pos.mk 0 2) (Pos.mk 0 4)) "keyword" []]
    _ (by decide) (by decide) (by decide) (by rfl)

/-!
Section: Claim C5 — every token of the final merged output is single-line
-/

theorem matchesToTokens_single {table : Option MappingTable}
    {qmatches : List (List HCapture)} {out : List Token}
    (h : matchesToTokens table qmatches = .ok out) :
    ∀ tok ∈ out, tok.range.start.line = tok.range.stop.line := by
  intro tok htok
  obtain ⟨ts, _, hn⟩ := matchesToTokens_ok h
  unfold normalizeTokens at hn
  obtain ⟨t, _, F, hF, htokF⟩ := splitAll_mem hn tok htok
  exact (splitToken_mem hF tok htokF).2.2.2.2

theorem addPosition_start_line (r : Range') (p : Pos) :
    (addPosition r p).start.line = r.start.line + p.line := by
  unfold addPosition
  dsimp only
  split <;> rfl

theorem addPosition_stop_line (r : Range') (p : Pos) :
    (addPosition r p).stop.line = r.stop.line + p.line := by
  unfold addPosition
  dsimp only
  split <;> rfl

theorem intersection_isSome_le {r o : Range'}
    (h : (r.intersection o).isSome = true) :
    max r.start o.start ≤ min r.stop o.stop := by
  by_contra hc
  rw [not_le] at hc
  unfold Range'.intersection at h
  rw [if_pos hc] at h
  cases h

theorem mergeStep_single {tokens : List Token} {injection : Injection}
    (h : ∀ t ∈ tokens, t.range.start.line = t.range.stop.line) :
    ∀ t ∈ mergeStep tokens injection,
      t.range.start.line = t.range.stop.line := by
  have hms : mergeStep tokens injection =
      (if injection.tokens.length > 0 then
        (tokens.filter (fun token =>
            decide (¬ injection.range.containsRange token.range))).flatMap
          (fun token => match token.range.intersection injection.range with
            | some _ =>
              (if token.range.start < injection.range.start then
                [Token.mk (Range'.mk token.range.start injection.range.start)
                  token.type token.modifiers]
              else []) ++
              (if injection.range.stop < token.range.stop then
                [Token.mk (Range'.mk injection.range.stop token.range.stop)
                  token.type token.modifiers]
              else [])
            | none => [token])
      else tokens) := rfl
  rw [hms]
  split
  · intro t ht
    obtain ⟨u, hu, htu⟩ := List.mem_flatMap.mp ht
    have humem : u ∈ tokens := (List.mem_filter.mp hu).1
    have husingle := h u humem
    cases hi : u.range.intersection injection.range with
    | none =>
      rw [hi] at htu
      rw [List.mem_singleton] at htu
      subst htu
      exact husingle
    | some v =>
      rw [hi] at htu
      have hsome : (u.range.intersection injection.range).isSome = true := by
        rw [hi]; rfl
      have hle := intersection_isSome_le hsome
      rcases List.mem_append.mp htu with htu1 | htu2
      · split at htu1
        · rename_i hbefore
          rw [List.mem_singleton] at htu1
          subst htu1
          -- fragment [u.start, injection.start]; injection.start ≤ u.stop
          have h1 : injection.range.start ≤ u.range.stop :=
            le_trans (le_trans (le_max_right _ _) hle) (min_le_left _ _)
          have h2 := Pos.lt_line hbefore
          have h3 := Pos.le_line h1
          dsimp only
          omega
        · cases htu1
      · split at htu2
        · rename_i hafter
          rw [List.mem_singleton] at htu2
          subst htu2
          -- fragment [injection.stop, u.stop]; u.start ≤ injection.stop
          have h1 : u.range.start ≤ injection.range.stop :=
            le_trans (le_trans (le_max_left _ _) hle) (min_le_right _ _)
          have h2 := Pos.lt_line hafter
          have h3 := Pos.le_line h1
          dsimp only
          omega
        · cases htu2
  · exact h

theorem mergeInjections_single {tokens : List Token}
    {injections : List Injection}
    (hp : ∀ t ∈ tokens, t.range.start.line = t.range.stop.line)
    (hi : ∀ inj ∈ injections, ∀ t ∈ inj.tokens,
      t.range.start.line = t.range.stop.line) :
    ∀ t ∈ mergeInjections tokens injections,
      t.range.start.line = t.range.stop.line := by
  intro t ht
  unfold mergeInjections at ht
  rcases List.mem_append.mp ht with ht1 | ht2
  · -- the folded parent fragments
    clear ht
    induction injections generalizing tokens with
    | nil => exact hp t ht1
    | cons inj injs ih =>
      rw [List.foldl_cons] at ht1
      exact ih (mergeStep_single hp)
        (fun i hmem => hi i (List.mem_cons_of_mem inj hmem)) ht1
  · obtain ⟨l, hl, htl⟩ := List.mem_flatten.mp ht2
    obtain ⟨inj, hinj, rfl⟩ := List.mem_map.mp hl
    exact hi inj hinj t htl

theorem getInjectionWith_single {recurse : Scen → Pos → Except Err (List Token)}
    {ctx : Ctx} {m : IMatch} {res : Option Injection}
    (hr : ∀ s p out, recurse s p = .ok out →
      ∀ t ∈ out, t.range.start.line = t.range.stop.line)
    (h : getInjectionWith recurse ctx m = .ok res) :
    ∀ inj, res = some inj → ∀ t ∈ inj.tokens,
      t.range.start.line = t.range.stop.line := by
  unfold getInjectionWith at h
  dsimp only at h
  split at h
  · injection h with h
    subst h
    intro inj hinj
    cases hinj
  · rename_i lang hlangeq
    split at h
    · injection h with h
      subst h
      intro inj hinj
      cases hinj
    · rename_i cap hcapeq
      split at h
      · cases hrec : recurse (cap.subScen lang) cap.nodeStart with
        | error e =>
          rw [hrec] at h
          cases h
        | ok tokens =>
          rw [hrec] at h
          replace h : Except.ok (some (Injection.mk
              (Range'.mk (convertPosition cap.nodeStart)
                (convertPosition cap.nodeStop)) tokens)) =
              Except.ok res := h
          injection h with h
          subst h
          intro inj hinj
          injection hinj with hinj
          subst hinj
          exact hr _ _ tokens hrec
      · injection h with h
        subst h
        intro inj hinj
        cases hinj

theorem getInjectionsWith_single
    {recurse : Scen → Pos → Except Err (List Token)} {ctx : Ctx}
    (hr : ∀ s p out, recurse s p = .ok out →
      ∀ t ∈ out, t.range.start.line = t.range.stop.line) :
    ∀ {ims : List IMatch} {injs : List Injection},
      getInjectionsWith recurse ctx ims = .ok injs →
      ∀ inj ∈ injs, ∀ t ∈ inj.tokens,
        t.range.start.line = t.range.stop.line := by
  intro ims
  induction ims with
  | nil =>
    intro injs h
    simp only [getInjectionsWith] at h
    injection h with h
    subst h
    intro inj hinj
    cases hinj
  | cons m ms ih =>
    intro injs h
    simp only [getInjectionsWith] at h
    cases hm : getInjectionWith recurse ctx m with
    | error e => rw [hm] at h; cases h
    | ok res =>
      rw [hm] at h
      cases hrest : getInjectionsWith recurse ctx ms with
      | error e => rw [hrest] at h; cases h
      | ok rest =>
        rw [hrest] at h
        injection h with h
        subst h
        intro inj hinj
        cases res with
        | none => exact ih hrest inj hinj
        | some inj0 =>
          rcases List.mem_cons.mp hinj with rfl | hinj2
          · exact getInjectionWith_single hr hm inj rfl
          · exact ih hrest inj hinj2

theorem parseToTokens_single :
    ∀ (fuel : Nat) (ctx : Ctx) (scen : Scen) (pos : Pos) (out : List Token),
      parseToTokens fuel ctx scen pos = .ok out →
      ∀ t ∈ out, t.range.start.line = t.range.stop.line := by
  intro fuel
  induction fuel with
  | zero =>
    intro ctx scen pos out h
    cases h
  | succ fuel ih =>
    intro ctx scen pos out h
    simp only [parseToTokens] at h
    cases hm : matchesToTokens ctx.table scen.hmatches with
    | error e => rw [hm] at h; cases h
    | ok tokens =>
      rw [hm] at h
      cases him : scen.imatches with
      | none =>
        rw [him] at h
        replace h : Except.ok (tokens.map (fun token =>
            Token.mk (addPosition token.range (convertPosition pos))
              token.type token.modifiers)) = Except.ok out := h
        injection h with h
        subst h
        intro t ht
        obtain ⟨u, hu, rfl⟩ := List.mem_map.mp ht
        have husingle := matchesToTokens_single hm u hu
        show (addPosition u.range (convertPosition pos)).start.line =
          (addPosition u.range (convertPosition pos)).stop.line
        rw [addPosition_start_line, addPosition_stop_line, husingle]
      | some imatches =>
        rw [him] at h
        replace h : Except.bind
            (getInjectionsWith (fun s p => parseToTokens fuel ctx s p) ctx
              imatches)
            (fun injections => Except.bind
              (pure (mergeInjections tokens injections))
              (fun merged => Except.ok (merged.map (fun token =>
                Token.mk (addPosition token.range (convertPosition pos))
                  token.type token.modifiers)))) = Except.ok out := h
        cases hI : getInjectionsWith (fun s p => parseToTokens fuel ctx s p)
            ctx imatches with
        | error e => rw [hI] at h; cases h
        | ok injs =>
          rw [hI] at h
          replace h : Except.ok ((mergeInjections tokens injs).map
              (fun token => Token.mk (addPosition token.range
                (convertPosition pos)) token.type token.modifiers)) =
              Except.ok out := h
          injection h with h
          subst h
          intro t ht
          obtain ⟨u, hu, rfl⟩ := List.mem_map.mp ht
          have husingle := mergeInjections_single (matchesToTokens_single hm)
            (getInjectionsWith_single (fun s p o ho => ih ctx s p o ho) hI)
            u hu
          show (addPosition u.range (convertPosition pos)).start.line =
            (addPosition u.range (convertPosition pos)).stop.line
          rw [addPosition_start_line, addPosition_stop_line, husingle]

/-- C5: every token in the final merged output of a highlight request —
surviving parent fragments, clipped fragments and coordinate-shifted
injection tokens alike, at any injection depth — has its range's start line
equal to its range's end line. -/
theorem claim_C5_single_line :
    ∀ (fuel : Nat) (configs : List LangConfig) (docLang : String)
      (scen : Scen) (out : List Token),
      provideDocumentSemanticTokens fuel configs docLang scen = Except.ok out →
      ∀ t ∈ out, t.range.start.line = t.range.stop.line := by
  intro fuel configs docLang scen out h
  unfold provideDocumentSemanticTokens at h
  cases hf : configs.find? (fun c => c.lang = docLang) with
  | none => rw [hf] at h; cases h
  | some config =>
    rw [hf] at h
    exact parseToTokens_single fuel _ scen (Pos.mk 0 0) out h

/-- Witness for C5: a request whose document has a `string` token clipped
by a `sub`-language injection producing a `number` token; every output
token is single-line. -/
theorem claim_C5_single_line_witness :
    (Token.mk (Range'.mk (Pos.mk 0 5) (Pos.mk 0 9)) "string"
      []).range.start.line =
    (Token.mk (Range'.mk (Pos.mk 0 5) (Pos.mk 0 9)) "string"
      []).range.stop.line :=
  claim_C5_single_line 2 [LangConfig.mk "doc" none, LangConfig.mk "sub" none]
    "doc"
    (Scen.mk [[HCapture.mk "string" (Pos.mk 0 0) (Pos.mk 0 9)]]
      (some [IMatch.mk (some "sub")
        [ICapture.mk "code" "xy" (Pos.mk 0 3) (Pos.mk 0 5)
          [("sub", Scen.mk [[HCapture.mk "number" (Pos.mk 0 0) (Pos.mk 0 2)]]
            none)]]]))
    [Token.mk (Range'.mk (Pos.mk 0 0) (Pos.mk 0 3)) "string" [],
     Token.mk (Range'.mk (Pos.mk 0 5) (Pos.mk 0 9)) "string" [],
     Token.mk (Range'.mk (Pos.mk 0 3) (Pos.mk 0 5)) "number" []]
    (by rfl)
    (Token.mk (Range'.mk (Pos.mk 0 5) (Pos.mk 0 9)) "string" [])
    (by decide)
